import Mathlib

/-!
Verification of the sqlite3 introspection module of Django 1.0.2
(`db/backends/sqlite3/introspection.py`).

The module has two parts:
* `FlexibleFieldLookupDict`, a dictionary-like object mapping SQLite
  column-type strings to Django field-type names, with a regex fallback
  for `char(N)` / `varchar(N)`;
* `DatabaseIntrospection`, with `get_table_list`, `get_table_description`,
  `get_relations` and `get_indexes` operating over the SQLite catalog.

The embedding below models Python strings as Lean `String`s, Python dicts
as association lists with Python's insert/overwrite semantics, the regex
`^\s*(?:var)?char\s*\(\s*(\d+)\s*\)\s*$` as a deterministic parser
(equivalent to the backtracking regex because at every choice point the
alternatives start with distinct non-overlapping characters), SQL query
results as lists of row structures, and a raised `KeyError` /
`NotImplementedError` as `Option` / `Except` failure.
-/

/-- Python 2 `str.lower()` on a byte/ASCII character: maps `A`-`Z` to
`a`-`z` and leaves every other character unchanged. -/
def pyLowerChar (c : Char) : Char :=
  if c.toNat ≥ 65 ∧ c.toNat ≤ 90 then Char.ofNat (c.toNat + 32) else c

/-- Python 2 `str.lower()` on a whole string. -/
def pyLower (s : String) : String :=
  ⟨s.data.map pyLowerChar⟩

/-- Python 2 regex class `\s` (no `re.UNICODE`): space, tab, newline,
carriage return, vertical tab, form feed. -/
def isPySpace (c : Char) : Bool :=
  c = ' ' || c = '\t' || c = '\n' || c = '\r' || c = '\x0b' || c = '\x0c'

/-- Python 2 regex class `\d`: an ASCII decimal digit. -/
def isPyDigit (c : Char) : Bool :=
  c.toNat ≥ 48 ∧ c.toNat ≤ 57

/-- Consume a maximal run of `\s` characters (regex `\s*`). -/
def dropSpaces : List Char → List Char
  | [] => []
  | c :: cs => if isPySpace c then dropSpaces cs else c :: cs

/-- Consume the literal `pat` from the front of the input, or fail. -/
def expectStr : List Char → List Char → Option (List Char)
  | [], s => some s
  | _ :: _, [] => none
  | p :: ps, c :: cs => if c = p then expectStr ps cs else none

/-- Consume a maximal run of digits (regex `\d+` greedy), returning the
digits and the remaining input. -/
def takeDigits : List Char → List Char × List Char
  | [] => ([], [])
  | c :: cs =>
    if isPyDigit c then
      let (ds, rest) := takeDigits cs
      (c :: ds, rest)
    else ([], c :: cs)

/-- Python `int()` on a nonempty string of decimal digits. -/
def digitsToNat (ds : List Char) : Nat :=
  ds.foldl (fun n c => 10 * n + (c.toNat - 48)) 0

/-- The regex `re.search(r'^\s*(?:var)?char\s*\(\s*(\d+)\s*\)\s*$', key)`
from `FlexibleFieldLookupDict.__getitem__`, returning `int(m.group(1))`
on a match.  The regex is anchored at both ends, so `re.search` behaves
as a full match; `$` also matching before a trailing newline is absorbed
by the final `\s*` since a newline is itself `\s`. -/
def matchCharPattern (s : List Char) : Option Nat :=
  let s0 := dropSpaces s
  let s1 := (expectStr ['v', 'a', 'r'] s0).getD s0
  match expectStr ['c', 'h', 'a', 'r'] s1 with
  | none => none
  | some s2 =>
    match expectStr ['('] (dropSpaces s2) with
    | none => none
    | some s3 =>
      match takeDigits (dropSpaces s3) with
      | (ds, s4) =>
        if ds.isEmpty then none
        else
          match expectStr [')'] (dropSpaces s4) with
          | none => none
          | some s5 =>
            if (dropSpaces s5).isEmpty then some (digitsToNat ds) else none

/-- Python dict lookup `d[k]` on an association list whose keys are
unique: the first binding of `k` wins. -/
def dictLookup {α : Type} (k : String) : List (String × α) → Option α
  | [] => none
  | (k', v) :: rest => if k = k' then some v else dictLookup k rest

/-- `FlexibleFieldLookupDict.base_data_types_reverse`: maps SQL types to
Django field types. -/
def base_data_types_reverse : List (String × String) :=
  [ ("bool", "BooleanField"),
    ("boolean", "BooleanField"),
    ("smallint", "SmallIntegerField"),
    ("smallint unsigned", "PositiveSmallIntegerField"),
    ("smallinteger", "SmallIntegerField"),
    ("int", "IntegerField"),
    ("integer", "IntegerField"),
    ("integer unsigned", "PositiveIntegerField"),
    ("decimal", "DecimalField"),
    ("real", "FloatField"),
    ("text", "TextField"),
    ("char", "CharField"),
    ("date", "DateField"),
    ("datetime", "DateTimeField"),
    ("time", "TimeField") ]

/-- The two result shapes of `FlexibleFieldLookupDict.__getitem__`: a
bare field-type name, or `('CharField', {'max_length': N})`. -/
inductive FieldType where
  | plain (name : String)
  | withMaxLength (name : String) (maxLength : Nat)
deriving DecidableEq, Repr

/-- `FlexibleFieldLookupDict.__getitem__`: lowercase the key, try the
fixed table, then the `char(N)`/`varchar(N)` pattern; `none` models the
raised `KeyError`. -/
def getItem (key : String) : Option FieldType :=
  let k := pyLower key
  match dictLookup k base_data_types_reverse with
  | some v => some (.plain v)
  | none =>
    match matchCharPattern k.data with
    | some n => some (.withMaxLength "CharField" n)
    | none => none

example : getItem "VARCHAR(30)" = some (.withMaxLength "CharField" 30) := by decide
example : getItem "integer unsigned" = some (.plain "PositiveIntegerField") := by decide
example : getItem "blob" = none := by decide
example : getItem "  vArChAr ( 042 )  " = some (.withMaxLength "CharField" 42) := by decide
example : getItem " integer " = none := by decide

/-! ## The schema introspector

The introspector issues fixed catalog queries.  We model each query's
result set as a list of row structures and the query semantics (the
`WHERE`/`ORDER BY` of the `sqlite_master` query, and the documented
shapes of `PRAGMA table_info`, `PRAGMA index_list`, `PRAGMA index_info`)
directly. -/

/-- A row of the `sqlite_master` system catalog (the columns the
`get_table_list` query touches). -/
structure SqliteMasterRow where
  name : String
  type : String
deriving DecidableEq, Repr

/-- Lexicographic order on character lists, byte-for-byte: SQLite's
default BINARY collation compares UTF-8 encodings with `memcmp`, which
coincides with code-point-wise lexicographic comparison because UTF-8
preserves code-point order. -/
def charListLe : List Char → List Char → Bool
  | [], _ => true
  | _ :: _, [] => false
  | a :: as, b :: bs => if a = b then charListLe as bs else decide (a < b)

/-- The `ORDER BY name` comparison on strings. -/
def strLe (a b : String) : Prop := charListLe a.data b.data = true

instance : DecidableRel strLe :=
  fun a b => inferInstanceAs (Decidable (charListLe a.data b.data = true))

theorem charListLe_total : ∀ xs ys : List Char,
    charListLe xs ys = true ∨ charListLe ys xs = true
  | [], _ => Or.inl rfl
  | _ :: _, [] => Or.inr rfl
  | x :: xs, y :: ys => by
    by_cases hxy : x = y
    · subst hxy
      simpa [charListLe] using charListLe_total xs ys
    · rcases lt_trichotomy x y with h | h | h
      · exact Or.inl (by simp [charListLe, hxy, h])
      · exact absurd h hxy
      · exact Or.inr (by simp [charListLe, Ne.symm hxy, h])

theorem charListLe_trans : ∀ xs ys zs : List Char,
    charListLe xs ys = true → charListLe ys zs = true →
    charListLe xs zs = true
  | [], _, _, _, _ => rfl
  | _ :: _, [], _, h1, _ => by simp [charListLe] at h1
  | _ :: _, _ :: _, [], _, h2 => by simp [charListLe] at h2
  | x :: xs, y :: ys, z :: zs, h1, h2 => by
    by_cases hxy : x = y <;> by_cases hyz : y = z
    · subst hxy; subst hyz
      simp only [charListLe, if_pos rfl] at h1 h2 ⊢
      exact charListLe_trans xs ys zs h1 h2
    · subst hxy
      simp only [charListLe, if_pos rfl] at h1
      simpa [charListLe, hyz] using h2
    · subst hyz
      simpa [charListLe, hxy] using h1
    · simp only [charListLe, if_neg hxy, decide_eq_true_eq] at h1
      simp only [charListLe, if_neg hyz, decide_eq_true_eq] at h2
      have hxz : x < z := lt_trans h1 h2
      simp [charListLe, ne_of_lt hxz, hxz]

instance : IsTotal String strLe := ⟨fun a b => charListLe_total a.data b.data⟩

instance : IsTrans String strLe :=
  ⟨fun a b c => charListLe_trans a.data b.data c.data⟩

/-- `DatabaseIntrospection.get_table_list`: semantics of
`SELECT name FROM sqlite_master WHERE type='table' AND NOT
name='sqlite_sequence' ORDER BY name`. -/
def get_table_list (master : List SqliteMasterRow) : List String :=
  List.insertionSort strLe
    ((master.filter
        (fun r => r.type = "table" ∧ r.name ≠ "sqlite_sequence")).map
      (fun r => r.name))

/-- A row of `PRAGMA table_info(t)`: cid, name, type, notnull,
dflt_value, pk. -/
structure TableInfoRow where
  cid : Nat
  name : String
  type : String
  notnull : Nat
  dflt_value : Option String
  pk : Nat
deriving DecidableEq, Repr

/-- The record built by `DatabaseIntrospection._table_info` for each
column. -/
structure ColumnInfo where
  name : String
  type : String
  null_ok : Bool
  pk : Nat
deriving DecidableEq, Repr

/-- `DatabaseIntrospection._table_info`: reshape the `PRAGMA table_info`
rows; `null_ok` is Python's `not field[3]`, i.e. `notnull == 0`. -/
def table_info (rows : List TableInfoRow) : List ColumnInfo :=
  rows.map (fun f => ⟨f.name, f.type, f.notnull == 0, f.pk⟩)

/-- A Python value appearing in a `cursor.description`-shaped tuple. -/
inductive PyVal where
  | str (s : String)
  | bool (b : Bool)
  | none
deriving DecidableEq, Repr

/-- `DatabaseIntrospection.get_table_description`: one tuple
`(name, type, None, None, None, None, null_ok)` per column, modelled as
a list of `PyVal`s per column. -/
def get_table_description (rows : List TableInfoRow) : List (List PyVal) :=
  (table_info rows).map
    (fun info =>
      [.str info.name, .str info.type, .none, .none, .none, .none,
       .bool info.null_ok])

/-- `DatabaseIntrospection.get_relations`: `raise NotImplementedError`.
The body consults nothing and touches nothing, so the embedding threads
an arbitrary database state `db` through unchanged, records the (empty)
list of SQL statements issued, and returns the error. -/
def get_relations {σ : Type} (db : σ) (table_name : String) :
    Except String Unit × σ × List String :=
  (Except.error "NotImplementedError", db, [])

/-- A row of `PRAGMA index_list(t)`: seq, name, unique. -/
structure IndexListRow where
  seq : Nat
  name : String
  unique : Nat
deriving DecidableEq, Repr

/-- A row of `PRAGMA index_info(i)`: seqno, cid, name. -/
structure IndexInfoRow where
  seqno : Nat
  cid : Nat
  name : String
deriving DecidableEq, Repr

/-- The per-column record returned by `get_indexes`:
`{'primary_key': ..., 'unique': ...}`. -/
structure IndexFlags where
  primary_key : Bool
  unique : Bool
deriving DecidableEq, Repr

/-- Python dict assignment `d[k] = v`: overwrite the binding in place if
`k` is already a key, otherwise add a binding. -/
def dictSet {α : Type} (d : List (String × α)) (k : String) (v : α) :
    List (String × α) :=
  if (d.map Prod.fst).contains k then
    d.map (fun p => if p.1 = k then (p.1, v) else p)
  else d ++ [(k, v)]

/-- The first loop of `get_indexes`: seed the dictionary with every
catalog column, `primary_key` iff `info['pk'] != 0`, `unique` False. -/
def initIndexes (cols : List ColumnInfo) : List (String × IndexFlags) :=
  cols.foldl (fun d info => dictSet d info.name ⟨info.pk != 0, false⟩) []

/-- `indexes[name]['unique'] = True`: mutate the entry of key `name` in
place.  Python raises `KeyError` when `name` is not a key, modelled as
`none`. -/
def setUniqueTrue (d : List (String × IndexFlags)) (k : String) :
    Option (List (String × IndexFlags)) :=
  if (d.map Prod.fst).contains k then
    some (d.map (fun p => if p.1 = k then (p.1, ⟨p.2.primary_key, true⟩) else p))
  else none

/-- The result of `PRAGMA index_info` for a named index, looked up in
the modelled catalog (an unknown index yields no rows). -/
def lookupIndexInfo (idxInfos : List (String × List IndexInfoRow))
    (n : String) : List IndexInfoRow :=
  (dictLookup n idxInfos).getD []

/-- One iteration of the second loop of `get_indexes`: skip the index
unless `unique` is truthy (`if not unique: continue`), skip it unless
`PRAGMA index_info` returns exactly one row (`if len(info) != 1:
continue`), and otherwise set the covered column's `unique` flag
(raising `KeyError`, i.e. `none`, when the column is unknown). -/
def applyIndexStep (idxInfos : List (String × List IndexInfoRow))
    (r : IndexListRow) (d : List (String × IndexFlags)) :
    Option (List (String × IndexFlags)) :=
  if r.unique == 0 then some d
  else
    match lookupIndexInfo idxInfos r.name with
    | [i] => setUniqueTrue d i.name
    | _ => some d

/-- The second loop of `get_indexes`: run `applyIndexStep` over the
`PRAGMA index_list` rows in order, aborting on the first `KeyError`. -/
def applyIndexes (idxInfos : List (String × List IndexInfoRow)) :
    List IndexListRow → List (String × IndexFlags) →
    Option (List (String × IndexFlags))
  | [], d => some d
  | r :: rs, d =>
    match applyIndexStep idxInfos r d with
    | some d2 => applyIndexes idxInfos rs d2
    | Option.none => Option.none

/-- `DatabaseIntrospection.get_indexes`: seed from `PRAGMA table_info`,
then walk `PRAGMA index_list`, consulting `PRAGMA index_info` per unique
index.  `none` models the `KeyError` raised when a single-column unique
index covers a name that is not a catalog column. -/
def get_indexes (cols : List TableInfoRow) (idxList : List IndexListRow)
    (idxInfos : List (String × List IndexInfoRow)) :
    Option (List (String × IndexFlags)) :=
  applyIndexes idxInfos idxList (initIndexes (table_info cols))

example :
    get_indexes
      [⟨0, "id", "integer", 1, Option.none, 1⟩,
       ⟨1, "email", "varchar(30)", 0, Option.none, 0⟩,
       ⟨2, "age", "integer", 0, Option.none, 0⟩]
      [⟨0, "idx_email", 1⟩, ⟨1, "idx_age", 0⟩]
      [("idx_email", [⟨0, 1, "email"⟩]), ("idx_age", [⟨0, 2, "age"⟩])]
    = some [("id", ⟨true, false⟩), ("email", ⟨false, true⟩),
            ("age", ⟨false, false⟩)] := by decide

example :
    get_table_list
      [⟨"zeta", "table"⟩, ⟨"sqlite_sequence", "table"⟩,
       ⟨"alpha", "table"⟩, ⟨"idx", "index"⟩]
    = ["alpha", "zeta"] := by decide

/-! ## Helper lemmas on the dictionary model -/

theorem dictLookup_eq_none {α : Type} (k : String) (l : List (String × α))
    (h : ∀ p ∈ l, k ≠ p.1) : dictLookup k l = none := by
  induction l with
  | nil => rfl
  | cons p rest ih =>
    obtain ⟨k', v⟩ := p
    have hne : k ≠ k' := h (k', v) (List.mem_cons_self _ _)
    simp only [dictLookup, if_neg hne]
    exact ih fun q hq => h q (List.mem_cons_of_mem _ hq)

theorem dictLookup_of_mem {α : Type} {k : String} {v : α}
    {l : List (String × α)} (hnd : (l.map Prod.fst).Nodup)
    (hm : (k, v) ∈ l) : dictLookup k l = some v := by
  induction l with
  | nil => cases hm
  | cons p rest ih =>
    obtain ⟨k', v'⟩ := p
    rcases List.mem_cons.mp hm with heq | hmem
    · obtain ⟨rfl, rfl⟩ := Prod.mk.injEq .. ▸ heq
      simp [dictLookup]
    · have hk : k ≠ k' := by
        rintro rfl
        exact (List.nodup_cons.mp hnd).1
          (List.mem_map.mpr ⟨(k, v), hmem, rfl⟩)
      simp only [dictLookup, if_neg hk]
      exact ih (List.nodup_cons.mp hnd).2 hmem

/-! ## C8: get_relations always fails -/

/-- C8: for every database state and every table name, `get_relations`
returns the `NotImplementedError` failure, leaves the state unchanged,
and issues no SQL statement. -/
theorem get_relations_always_fails {σ : Type} (db : σ) (table_name : String) :
    get_relations db table_name = (Except.error "NotImplementedError", db, []) :=
  rfl

/-! ## C4: get_table_list -/

/-- C4: `get_table_list` is sorted ascending by the engine's
lexicographic (BINARY) order, never contains `sqlite_sequence`, and
contains exactly the names of the catalog's table-type rows other than
`sqlite_sequence`. -/
theorem get_table_list_spec (master : List SqliteMasterRow) :
    List.Sorted strLe (get_table_list master) ∧
    "sqlite_sequence" ∉ get_table_list master ∧
    ∀ x, x ∈ get_table_list master ↔
      x ≠ "sqlite_sequence" ∧ ∃ r ∈ master, r.type = "table" ∧ r.name = x := by
  have hmem : ∀ x, x ∈ get_table_list master ↔
      x ≠ "sqlite_sequence" ∧ ∃ r ∈ master, r.type = "table" ∧ r.name = x := by
    intro x
    simp only [get_table_list, List.mem_insertionSort, List.mem_map,
      List.mem_filter, decide_eq_true_eq]
    constructor
    · rintro ⟨r, ⟨hr, ht, hn⟩, rfl⟩
      exact ⟨hn, r, hr, ht, rfl⟩
    · rintro ⟨hx, r, hr, ht, rfl⟩
      exact ⟨r, ⟨hr, ht, hx⟩, rfl⟩
  refine ⟨List.sorted_insertionSort strLe _, ?_, hmem⟩
  intro hin
  exact ((hmem _).mp hin).1 rfl

/-- C4 witness: the membership characterization evaluated on a concrete
catalog. -/
theorem get_table_list_spec_witness :
    "alpha" ∈ get_table_list
      [⟨"zeta", "table"⟩, ⟨"sqlite_sequence", "table"⟩,
       ⟨"alpha", "table"⟩, ⟨"idx", "index"⟩] :=
  ((get_table_list_spec
      [⟨"zeta", "table"⟩, ⟨"sqlite_sequence", "table"⟩,
       ⟨"alpha", "table"⟩, ⟨"idx", "index"⟩]).2.2 "alpha").mpr
    ⟨by decide, ⟨"alpha", "table"⟩, by decide, rfl, rfl⟩

/-! ## C5: get_table_description -/

/-- C5 counterexample: on a one-column table the produced tuple contains
four null placeholders, not three as claimed. -/
theorem get_table_description_counterexample :
    (get_table_description [⟨0, "id", "integer", 0, Option.none, 1⟩]).map
        (fun t => t.countP (fun v => v == PyVal.none)) = [4] ∧
    ¬ (get_table_description [⟨0, "id", "integer", 0, Option.none, 1⟩]).map
        (fun t => t.countP (fun v => v == PyVal.none)) = [3] := by
  decide

/-- C5 (amended): `get_table_description` returns one 7-tuple per
catalog column, in catalog order, of the shape
`(name, type, None, None, None, None, null_ok)`, in which exactly FOUR
positions are always null placeholders. -/
theorem get_table_description_shape (rows : List TableInfoRow) :
    get_table_description rows = rows.map (fun f =>
      [.str f.name, .str f.type, .none, .none, .none, .none,
       .bool (f.notnull == 0)]) ∧
    ∀ t ∈ get_table_description rows,
      t.length = 7 ∧ t.countP (fun v => v == PyVal.none) = 4 := by
  constructor
  · simp [get_table_description, table_info]
  · intro t ht
    simp only [get_table_description, table_info, List.map_map,
      List.mem_map, Function.comp] at ht
    obtain ⟨f, _, rfl⟩ := ht
    refine ⟨rfl, ?_⟩
    simp [List.countP_cons, List.countP_nil]

/-- C5 witness: the shape facts evaluated on a concrete column. -/
theorem get_table_description_shape_witness :
    ([PyVal.str "id", PyVal.str "integer", PyVal.none, PyVal.none,
      PyVal.none, PyVal.none, PyVal.bool true] : List PyVal).length = 7 ∧
    ([PyVal.str "id", PyVal.str "integer", PyVal.none, PyVal.none,
      PyVal.none, PyVal.none, PyVal.bool true] : List PyVal).countP
        (fun v => v == PyVal.none) = 4 :=
  (get_table_description_shape [⟨0, "id", "integer", 0, Option.none, 1⟩]).2
    _ (by decide)

/-! ## C2: fixed-table lookups -/

/-- C2: for every key of the fixed table, any string whose lowercase
form is that key resolves to exactly the mapped field-type name. -/
theorem fixed_table_lookup (k v s : String)
    (hk : (k, v) ∈ base_data_types_reverse) (hs : pyLower s = k) :
    getItem s = some (.plain v) := by
  have hnd : (base_data_types_reverse.map Prod.fst).Nodup := by decide
  simp only [getItem, hs, dictLookup_of_mem hnd hk]

/-- C2 witness: `"INTEGER UNSIGNED"` (any letter case) resolves to
`PositiveIntegerField`. -/
theorem fixed_table_lookup_witness :
    getItem "INTEGER UNSIGNED" = some (.plain "PositiveIntegerField") :=
  fixed_table_lookup "integer unsigned" "PositiveIntegerField"
    "INTEGER UNSIGNED" (by decide) (by decide)

/-! ## C3: unknown types fail -/

/-- C3: a string whose lowercase form is neither a key of the fixed
table nor a match of the `char(N)`/`varchar(N)` pattern fails with
`KeyError` (modelled by `none`). -/
theorem unknown_type_fails (s : String)
    (h1 : pyLower s ∉ base_data_types_reverse.map Prod.fst)
    (h2 : matchCharPattern (pyLower s).data = none) :
    getItem s = none := by
  have hl : dictLookup (pyLower s) base_data_types_reverse = none := by
    refine dictLookup_eq_none _ _ fun p hp heq => ?_
    exact h1 (heq ▸ List.mem_map.mpr ⟨p, hp, rfl⟩)
  simp only [getItem, hl, h2]

/-- C3 witness: `"blob"` fails. -/
theorem unknown_type_fails_witness : getItem "blob" = none :=
  unknown_type_fails "blob" (by decide) (by decide)

/-! ## Character-class and parser lemmas -/

theorem isPySpace_cases {c : Char} (h : isPySpace c = true) :
    c = ' ' ∨ c = '\t' ∨ c = '\n' ∨ c = '\r' ∨ c = '\x0b' ∨ c = '\x0c' := by
  simp only [isPySpace, Bool.or_eq_true, decide_eq_true_eq] at h
  tauto

theorem pyLowerChar_space {c : Char} (h : isPySpace c = true) :
    pyLowerChar c = c := by
  rcases isPySpace_cases h with rfl | rfl | rfl | rfl | rfl | rfl <;> decide

theorem pyLowerChar_digit {c : Char} (h : isPyDigit c = true) :
    pyLowerChar c = c := by
  simp only [isPyDigit, decide_eq_true_eq] at h
  unfold pyLowerChar
  rw [if_neg]
  omega

theorem isPySpace_not_digit {c : Char} (h : isPySpace c = true) :
    isPyDigit c = false := by
  rcases isPySpace_cases h with rfl | rfl | rfl | rfl | rfl | rfl <;> decide

theorem isPyDigit_not_space {c : Char} (h : isPyDigit c = true) :
    isPySpace c = false := by
  cases hc : isPySpace c
  · rfl
  · rw [isPySpace_not_digit hc] at h
    cases h

theorem map_pyLowerChar_fix {w : List Char}
    (hw : ∀ c ∈ w, pyLowerChar c = c) : w.map pyLowerChar = w := by
  induction w with
  | nil => rfl
  | cons c cs ih =>
    simp only [List.map_cons, hw c (List.mem_cons_self _ _),
      ih fun d hd => hw d (List.mem_cons_of_mem _ hd)]

theorem dropSpaces_append {w s : List Char}
    (hw : ∀ c ∈ w, isPySpace c = true) :
    dropSpaces (w ++ s) = dropSpaces s := by
  induction w with
  | nil => rfl
  | cons c cs ih =>
    simp only [List.cons_append, dropSpaces,
      hw c (List.mem_cons_self _ _), if_true]
    exact ih fun d hd => hw d (List.mem_cons_of_mem _ hd)

theorem dropSpaces_cons_of_not {c : Char} {s : List Char}
    (h : isPySpace c = false) : dropSpaces (c :: s) = c :: s := by
  simp [dropSpaces, h]

theorem dropSpaces_nil_of_spaces {w : List Char}
    (hw : ∀ c ∈ w, isPySpace c = true) : dropSpaces w = [] := by
  have h := @dropSpaces_append w [] hw
  simpa using h

theorem expectStr_append (pat rest : List Char) :
    expectStr pat (pat ++ rest) = some rest := by
  induction pat with
  | nil => rfl
  | cons p ps ih => simp [expectStr, ih]

theorem expectStr_ne_head {p c : Char} {ps cs : List Char} (h : c ≠ p) :
    expectStr (p :: ps) (c :: cs) = none := by
  simp [expectStr, h]

theorem takeDigits_append {ds rest : List Char}
    (hds : ∀ c ∈ ds, isPyDigit c = true)
    (hrest : ∀ c, rest.head? = some c → isPyDigit c = false) :
    takeDigits (ds ++ rest) = (ds, rest) := by
  induction ds with
  | nil =>
    cases rest with
    | nil => rfl
    | cons c cs => simp [takeDigits, hrest c rfl]
  | cons d ds' ih =>
    have hd := hds d (List.mem_cons_self _ _)
    have ih' := ih fun c hc => hds c (List.mem_cons_of_mem _ hc)
    simp [takeDigits, hd, ih']

/-- Running the embedded regex on an input of exactly the shape
`\s* (var)? char \s* \( \s* \d+ \s* \) \s*` (already lowercased)
extracts the parsed integer. -/
theorem matchCharPattern_shape
    (w0 w1 w2 w3 w4 V ds : List Char)
    (hw0 : ∀ c ∈ w0, isPySpace c = true)
    (hw1 : ∀ c ∈ w1, isPySpace c = true)
    (hw2 : ∀ c ∈ w2, isPySpace c = true)
    (hw3 : ∀ c ∈ w3, isPySpace c = true)
    (hw4 : ∀ c ∈ w4, isPySpace c = true)
    (hV : V = [] ∨ V = ['v', 'a', 'r'])
    (hds : ds ≠ []) (hdig : ∀ c ∈ ds, isPyDigit c = true) :
    matchCharPattern
      (w0 ++ V ++ ['c', 'h', 'a', 'r'] ++ w1 ++ ['('] ++ w2 ++ ds ++ w3
        ++ [')'] ++ w4) = some (digitsToNat ds) := by
  obtain ⟨d0, ds', rfl⟩ : ∃ d0 ds', ds = d0 :: ds' := by
    cases ds with
    | nil => exact absurd rfl hds
    | cons a l => exact ⟨a, l, rfl⟩
  have hd0 : isPyDigit d0 = true := hdig d0 (List.mem_cons_self _ _)
  have hdv : ∀ s, dropSpaces ('v' :: s) = 'v' :: s :=
    fun s => dropSpaces_cons_of_not (by decide)
  have hdc : ∀ s, dropSpaces ('c' :: s) = 'c' :: s :=
    fun s => dropSpaces_cons_of_not (by decide)
  have hdp : ∀ s, dropSpaces ('(' :: s) = '(' :: s :=
    fun s => dropSpaces_cons_of_not (by decide)
  have hdr : ∀ s, dropSpaces (')' :: s) = ')' :: s :=
    fun s => dropSpaces_cons_of_not (by decide)
  have hdd : ∀ s, dropSpaces (d0 :: s) = d0 :: s :=
    fun s => dropSpaces_cons_of_not (isPyDigit_not_space hd0)
  have hev : ∀ s : List Char,
      expectStr ['v', 'a', 'r'] ('v' :: 'a' :: 'r' :: s) = some s :=
    fun s => by simp [expectStr]
  have hevc : ∀ s : List Char, expectStr ['v', 'a', 'r'] ('c' :: s) = none :=
    fun s => by simp [expectStr]
  have hech : ∀ s : List Char,
      expectStr ['c', 'h', 'a', 'r'] ('c' :: 'h' :: 'a' :: 'r' :: s) = some s :=
    fun s => by simp [expectStr]
  have hepl : ∀ s : List Char, expectStr ['('] ('(' :: s) = some s :=
    fun s => by simp [expectStr]
  have hepr : ∀ s : List Char, expectStr [')'] (')' :: s) = some s :=
    fun s => by simp [expectStr]
  have hrest3 : ∀ c, (w3 ++ (')' :: w4)).head? = some c →
      isPyDigit c = false := by
    cases w3 with
    | nil =>
      intro c hc
      simp only [List.nil_append, List.head?_cons, Option.some.injEq] at hc
      subst hc
      decide
    | cons a t =>
      intro c hc
      simp only [List.cons_append, List.head?_cons, Option.some.injEq] at hc
      subst hc
      exact isPySpace_not_digit (hw3 a (List.mem_cons_self _ _))
  have htd : takeDigits (d0 :: (ds' ++ (w3 ++ (')' :: w4))))
      = (d0 :: ds', w3 ++ (')' :: w4)) := by
    have h := @takeDigits_append (d0 :: ds') (w3 ++ (')' :: w4)) hdig hrest3
    simpa using h
  rcases hV with rfl | rfl
  · simp only [matchCharPattern, List.append_assoc, List.cons_append,
      List.nil_append, dropSpaces_append hw0, dropSpaces_append hw1,
      dropSpaces_append hw2, dropSpaces_append hw3, hdv, hdc, hdp, hdr, hdd,
      hev, hevc, hech, hepl, hepr, Option.getD_none, Option.getD_some, htd,
      dropSpaces_nil_of_spaces hw4, List.isEmpty_cons, List.isEmpty_nil,
      Bool.false_eq_true, if_false, if_true]
  · simp only [matchCharPattern, List.append_assoc, List.cons_append,
      List.nil_append, dropSpaces_append hw0, dropSpaces_append hw1,
      dropSpaces_append hw2, dropSpaces_append hw3, hdv, hdc, hdp, hdr, hdd,
      hev, hevc, hech, hepl, hepr, Option.getD_none, Option.getD_some, htd,
      dropSpaces_nil_of_spaces hw4, List.isEmpty_cons, List.isEmpty_nil,
      Bool.false_eq_true, if_false, if_true]

/-- No key of the fixed type table contains a parenthesis. -/
theorem keys_no_lparen :
    ∀ p ∈ base_data_types_reverse, '(' ∉ p.1.data := by decide

/-! ## C1: char(N) / varchar(N) resolution -/

/-- C1: every string of the form `char(N)` or `varchar(N)` — optional
`var` prefix, any letter case, arbitrary `\s` runs around the name and
inside/around the parentheses, `N` a nonempty run of decimal digits —
resolves to `('CharField', {'max_length': N})` with `N` parsed as an
integer. -/
theorem charN_resolves
    (w0 w1 w2 w3 w4 V C ds : List Char)
    (hw0 : ∀ c ∈ w0, isPySpace c = true)
    (hw1 : ∀ c ∈ w1, isPySpace c = true)
    (hw2 : ∀ c ∈ w2, isPySpace c = true)
    (hw3 : ∀ c ∈ w3, isPySpace c = true)
    (hw4 : ∀ c ∈ w4, isPySpace c = true)
    (hV : V.map pyLowerChar = [] ∨ V.map pyLowerChar = ['v', 'a', 'r'])
    (hC : C.map pyLowerChar = ['c', 'h', 'a', 'r'])
    (hds : ds ≠ []) (hdig : ∀ c ∈ ds, isPyDigit c = true) :
    getItem ⟨w0 ++ V ++ C ++ w1 ++ ['('] ++ w2 ++ ds ++ w3 ++ [')'] ++ w4⟩
      = some (.withMaxLength "CharField" (digitsToNat ds)) := by
  have hw0' : w0.map pyLowerChar = w0 :=
    map_pyLowerChar_fix fun c hc => pyLowerChar_space (hw0 c hc)
  have hw1' : w1.map pyLowerChar = w1 :=
    map_pyLowerChar_fix fun c hc => pyLowerChar_space (hw1 c hc)
  have hw2' : w2.map pyLowerChar = w2 :=
    map_pyLowerChar_fix fun c hc => pyLowerChar_space (hw2 c hc)
  have hw3' : w3.map pyLowerChar = w3 :=
    map_pyLowerChar_fix fun c hc => pyLowerChar_space (hw3 c hc)
  have hw4' : w4.map pyLowerChar = w4 :=
    map_pyLowerChar_fix fun c hc => pyLowerChar_space (hw4 c hc)
  have hds' : ds.map pyLowerChar = ds :=
    map_pyLowerChar_fix fun c hc => pyLowerChar_digit (hdig c hc)
  have hlow :
      (w0 ++ V ++ C ++ w1 ++ ['('] ++ w2 ++ ds ++ w3 ++ [')']
        ++ w4).map pyLowerChar
      = w0 ++ V.map pyLowerChar ++ ['c', 'h', 'a', 'r'] ++ w1 ++ ['(']
        ++ w2 ++ ds ++ w3 ++ [')'] ++ w4 := by
    simp only [List.map_append, hw0', hw1', hw2', hw3', hw4', hds', hC]
    rfl
  have hmatch :
      matchCharPattern
        ((w0 ++ V ++ C ++ w1 ++ ['('] ++ w2 ++ ds ++ w3 ++ [')']
          ++ w4).map pyLowerChar) = some (digitsToNat ds) := by
    rw [hlow]
    exact matchCharPattern_shape w0 w1 w2 w3 w4 (V.map pyLowerChar) ds
      hw0 hw1 hw2 hw3 hw4 hV hds hdig
  have hlparen :
      '(' ∈ (w0 ++ V ++ C ++ w1 ++ ['('] ++ w2 ++ ds ++ w3 ++ [')']
        ++ w4).map pyLowerChar := by
    rw [hlow]
    simp
  have hdict :
      dictLookup
        (pyLower ⟨w0 ++ V ++ C ++ w1 ++ ['('] ++ w2 ++ ds ++ w3 ++ [')']
          ++ w4⟩) base_data_types_reverse = none := by
    refine dictLookup_eq_none _ _ fun p hp heq => ?_
    exact keys_no_lparen p hp (heq ▸ hlparen)
  have hmatch' :
      matchCharPattern
        (pyLower ⟨w0 ++ V ++ C ++ w1 ++ ['('] ++ w2 ++ ds ++ w3 ++ [')']
          ++ w4⟩).data = some (digitsToNat ds) := hmatch
  simp only [getItem, hdict, hmatch']

/-- C1 witness: `"VARCHAR(30)"` resolves to
`('CharField', {'max_length': 30})`. -/
theorem charN_resolves_witness :
    getItem "VARCHAR(30)" = some (.withMaxLength "CharField" 30) := by
  have h := charN_resolves [] [] [] [] [] ['V', 'A', 'R'] ['C', 'H', 'A', 'R']
    ['3', '0'] (by decide) (by decide) (by decide) (by decide) (by decide)
    (Or.inr (by decide)) (by decide) (by decide) (by decide)
  exact h

/-! ## C10: whitespace is not tolerated on fixed-table keys -/

/-- `true` iff the character list is nonempty and neither its first nor
its last character is whitespace. -/
def noSpaceEnds (l : List Char) : Bool :=
  match l.head?, l.getLast? with
  | some a, some b => !isPySpace a && !isPySpace b
  | _, _ => false

/-- `true` iff the character list starts with a non-space character
other than `v` and `c`. -/
def headNotVC (l : List Char) : Bool :=
  match l.head? with
  | some c => !(c = 'v') && !(c = 'c') && !isPySpace c
  | none => false

theorem keys_noSpaceEnds :
    ∀ p ∈ base_data_types_reverse, noSpaceEnds p.1.data = true := by decide

theorem keys_headNotVC :
    ∀ p ∈ base_data_types_reverse,
      p.1 = "char" ∨ headNotVC p.1.data = true := by decide

theorem keys_lower :
    ∀ p ∈ base_data_types_reverse, pyLower p.1 = p.1 := by decide

theorem noSpaceEnds_head {l : List Char} (h : noSpaceEnds l = true) :
    ∀ c, l.head? = some c → isPySpace c = false := by
  intro c hc
  unfold noSpaceEnds at h
  rw [hc] at h
  cases hg : l.getLast? <;> rw [hg] at h
  · cases h
  · simp only [Bool.and_eq_true, Bool.not_eq_true'] at h
    exact h.1

theorem noSpaceEnds_getLast {l : List Char} (h : noSpaceEnds l = true) :
    ∀ c, l.getLast? = some c → isPySpace c = false := by
  intro c hc
  unfold noSpaceEnds at h
  rw [hc] at h
  cases hg : l.head? <;> rw [hg] at h
  · cases h
  · simp only [Bool.and_eq_true, Bool.not_eq_true'] at h
    exact h.2

/-- A key with non-space end characters is distinct from any padding of
any string by whitespace on the left or right. -/
theorem padded_ne_noSpaceEnds {w1 w2 mid l : List Char}
    (hw1 : ∀ c ∈ w1, isPySpace c = true)
    (hw2 : ∀ c ∈ w2, isPySpace c = true)
    (hne : ¬(w1 = [] ∧ w2 = [])) (hl : noSpaceEnds l = true) :
    w1 ++ mid ++ w2 ≠ l := by
  intro heq
  cases w1 with
  | cons a t =>
    have hha : l.head? = some a := by
      rw [← heq]
      simp
    have hfalse := noSpaceEnds_head hl a hha
    rw [hw1 a (List.mem_cons_self _ _)] at hfalse
    cases hfalse
  | nil =>
    have hw2ne : w2 ≠ [] := fun h => hne ⟨rfl, h⟩
    have hb : w2.getLast? = some (w2.getLast hw2ne) :=
      List.getLast?_eq_getLast w2 hw2ne
    have hbl : l.getLast? = some (w2.getLast hw2ne) := by
      rw [← heq, List.nil_append, List.getLast?_append_of_ne_nil _ hw2ne]
      exact hb
    have hbm : w2.getLast hw2ne ∈ w2 := List.getLast_mem hw2ne
    have hfalse := noSpaceEnds_getLast hl _ hbl
    rw [hw2 _ hbm] at hfalse
    cases hfalse

/-- The regex never matches a whitespace-padded fixed-table key other
than `char`: such keys begin with a character other than `v` and `c`. -/
theorem matchCharPattern_padded_key {k : String} {w1 w2 : List Char}
    (hw1 : ∀ c ∈ w1, isPySpace c = true)
    (hhead : headNotVC k.data = true) :
    matchCharPattern (w1 ++ k.data ++ w2) = none := by
  obtain ⟨kh, kt, hk⟩ : ∃ kh kt, k.data = kh :: kt := by
    cases hkd : k.data with
    | nil => rw [hkd] at hhead; cases hhead
    | cons a l => exact ⟨a, l, rfl⟩
  rw [hk] at hhead
  unfold headNotVC at hhead
  simp only [List.head?_cons, Bool.and_eq_true, Bool.not_eq_true',
    decide_eq_false_iff_not] at hhead
  obtain ⟨⟨hv, hc⟩, hsp⟩ := hhead
  have hvn : ∀ s : List Char, expectStr ['v', 'a', 'r'] (kh :: s) = none :=
    fun s => expectStr_ne_head hv
  have hcn : ∀ s : List Char, expectStr ['c', 'h', 'a', 'r'] (kh :: s) = none :=
    fun s => expectStr_ne_head hc
  simp only [matchCharPattern, hk, List.append_assoc, List.cons_append,
    dropSpaces_append hw1, dropSpaces_cons_of_not hsp, hvn,
    Option.getD_none, hcn]

/-- C10: adding leading or trailing whitespace to any fixed-table key
other than `char` makes resolution fail, although the bare key resolves
successfully: whitespace tolerance belongs to the `char(N)`/`varchar(N)`
pattern alone. -/
theorem padded_key_fails (k v : String) (w1 w2 : List Char)
    (hk : (k, v) ∈ base_data_types_reverse) (hkc : k ≠ "char")
    (hw1 : ∀ c ∈ w1, isPySpace c = true)
    (hw2 : ∀ c ∈ w2, isPySpace c = true)
    (hne : ¬(w1 = [] ∧ w2 = [])) :
    getItem ⟨w1 ++ k.data ++ w2⟩ = none ∧ getItem k = some (.plain v) := by
  have hnd : (base_data_types_reverse.map Prod.fst).Nodup := by decide
  have hlowk : pyLower k = k := keys_lower (k, v) hk
  have hkdata : k.data.map pyLowerChar = k.data := congrArg String.data hlowk
  have hhead : headNotVC k.data = true :=
    (keys_headNotVC (k, v) hk).resolve_left hkc
  constructor
  · have hw1' : w1.map pyLowerChar = w1 :=
      map_pyLowerChar_fix fun c hc => pyLowerChar_space (hw1 c hc)
    have hw2' : w2.map pyLowerChar = w2 :=
      map_pyLowerChar_fix fun c hc => pyLowerChar_space (hw2 c hc)
    have hlows : (pyLower ⟨w1 ++ k.data ++ w2⟩).data = w1 ++ k.data ++ w2 := by
      show (w1 ++ k.data ++ w2).map pyLowerChar = _
      simp only [List.map_append, hw1', hw2', hkdata]
    have hdict : dictLookup (pyLower ⟨w1 ++ k.data ++ w2⟩)
        base_data_types_reverse = none := by
      refine dictLookup_eq_none _ _ fun p hp heq => ?_
      exact padded_ne_noSpaceEnds hw1 hw2 hne (keys_noSpaceEnds p hp)
        (hlows ▸ congrArg String.data heq)
    have hpat : matchCharPattern
        (pyLower ⟨w1 ++ k.data ++ w2⟩).data = none := by
      rw [hlows]
      exact matchCharPattern_padded_key hw1 hhead
    simp only [getItem, hdict, hpat]
  · simp only [getItem, hlowk, dictLookup_of_mem hnd hk]

/-- C10 witness: `" integer "` fails although `"integer"` resolves. -/
theorem padded_key_fails_witness :
    getItem " integer " = none ∧
    getItem "integer" = some (.plain "IntegerField") := by
  have h := padded_key_fails "integer" "IntegerField" [' '] [' ']
    (by decide) (by decide) (by decide) (by decide) (by decide)
  exact h

/-! ## Dictionary lemmas for get_indexes -/

theorem contains_iff_mem {l : List String} {a : String} :
    l.contains a = true ↔ a ∈ l := List.elem_iff

theorem dictLookup_isSome_of_mem {α : Type} {d : List (String × α)}
    {a : String} (h : a ∈ d.map Prod.fst) : ∃ v, dictLookup a d = some v := by
  induction d with
  | nil => simp at h
  | cons p rest ih =>
    obtain ⟨k', v'⟩ := p
    by_cases hp : a = k'
    · exact ⟨v', by simp [dictLookup, hp]⟩
    · simp only [List.map_cons, List.mem_cons] at h
      rcases h with h | h
    -- the head case contradicts hp
      · exact absurd h hp
      · obtain ⟨v, hv⟩ := ih h
        exact ⟨v, by simp [dictLookup, hp, hv]⟩

theorem dictLookup_mem {α : Type} {d : List (String × α)} {a : String}
    {v : α} (h : dictLookup a d = some v) : (a, v) ∈ d := by
  induction d with
  | nil => cases h
  | cons p rest ih =>
    obtain ⟨k', v'⟩ := p
    by_cases hp : a = k'
    · simp only [dictLookup, if_pos hp, Option.some.injEq] at h
      subst hp; subst h
      exact List.mem_cons_self _ _
    · simp only [dictLookup, if_neg hp] at h
      exact List.mem_cons_of_mem _ (ih h)

theorem dictLookup_append {α : Type} (d e : List (String × α)) (a : String) :
    dictLookup a (d ++ e) =
      match dictLookup a d with
      | some v => some v
      | none => dictLookup a e := by
  induction d with
  | nil => rfl
  | cons p rest ih =>
    obtain ⟨k', v'⟩ := p
    by_cases hp : a = k' <;> simp [dictLookup, hp, ih]

theorem dictSet_keys {α : Type} (d : List (String × α)) (k : String) (v : α)
    (a : String) :
    a ∈ (dictSet d k v).map Prod.fst ↔ a ∈ d.map Prod.fst ∨ a = k := by
  unfold dictSet
  split
  · rename_i hc
    have hk : k ∈ d.map Prod.fst := contains_iff_mem.mp hc
    have hkeys : (d.map fun p => if p.1 = k then (p.1, v) else p).map Prod.fst
        = d.map Prod.fst := by
      rw [List.map_map]
      refine List.map_congr_left fun p _ => ?_
      by_cases hp : p.1 = k <;> simp [hp]
    rw [hkeys]
    constructor
    · exact Or.inl
    · rintro (h | rfl)
      · exact h
      · exact hk
  · simp [List.map_append]

theorem dictSet_forall {α : Type} {P : String × α → Prop}
    {d : List (String × α)} {k : String} {v : α}
    (hd : ∀ p ∈ d, P p) (hv : ∀ a, P (a, v)) :
    ∀ p ∈ dictSet d k v, P p := by
  unfold dictSet
  split
  · intro p hp
    obtain ⟨q, hq, rfl⟩ := List.mem_map.mp hp
    by_cases hqk : q.1 = k
    · simpa [hqk] using hv q.1
    · simpa [hqk] using hd q hq
  · intro p hp
    rcases List.mem_append.mp hp with h | h
    · exact hd p h
    · rcases List.mem_singleton.mp h with rfl
      exact hv k

theorem dictLookup_map_overwrite {α : Type} (d : List (String × α))
    (k : String) (v : α) :
    dictLookup k (d.map fun p => if p.1 = k then (p.1, v) else p)
      = (dictLookup k d).map fun _ => v := by
  induction d with
  | nil => rfl
  | cons p rest ih =>
    obtain ⟨k', v'⟩ := p
    dsimp only [List.map_cons]
    by_cases hk' : k' = k
    · rw [if_pos hk']
      simp only [dictLookup, if_pos hk'.symm]
      rfl
    · rw [if_neg hk']
      simp only [dictLookup, if_neg (fun h : k = k' => hk' h.symm)]
      exact ih

theorem dictLookup_map_other {α : Type} (d : List (String × α))
    (k a : String) (f : α → α) (ha : a ≠ k) :
    dictLookup a (d.map fun p => if p.1 = k then (p.1, f p.2) else p)
      = dictLookup a d := by
  induction d with
  | nil => rfl
  | cons p rest ih =>
    obtain ⟨k', v'⟩ := p
    dsimp only [List.map_cons]
    by_cases hk' : k' = k
    · rw [if_pos hk']
      have hak : a ≠ k' := fun h => ha (h.trans hk')
      simp only [dictLookup, if_neg hak]
      exact ih
    · rw [if_neg hk']
      by_cases hak : a = k'
      · simp only [dictLookup, if_pos hak]
      · simp only [dictLookup, if_neg hak]
        exact ih

theorem dictLookup_dictSet_self {α : Type} (d : List (String × α))
    (k : String) (v : α) : dictLookup k (dictSet d k v) = some v := by
  unfold dictSet
  split
  · rename_i hc
    obtain ⟨v0, hv0⟩ := dictLookup_isSome_of_mem (contains_iff_mem.mp hc)
    rw [dictLookup_map_overwrite, hv0]
    rfl
  · rename_i hc
    have hnm : k ∉ d.map Prod.fst := fun hm => hc (contains_iff_mem.mpr hm)
    have hnone : dictLookup k d = none := by
      refine dictLookup_eq_none _ _ fun p hp heq => ?_
      exact hnm (heq ▸ List.mem_map.mpr ⟨p, hp, rfl⟩)
    rw [dictLookup_append, hnone]
    simp [dictLookup]

theorem dictLookup_dictSet_other {α : Type} (d : List (String × α))
    (k a : String) (v : α) (ha : a ≠ k) :
    dictLookup a (dictSet d k v) = dictLookup a d := by
  unfold dictSet
  split
  · have h := dictLookup_map_other d k a (fun _ => v) ha
    simpa using h
  · rw [dictLookup_append]
    have : dictLookup a [(k, v)] = none := by simp [dictLookup, ha]
    rw [this]
    cases dictLookup a d <;> rfl

/-! ## setUniqueTrue and applyIndexes lemmas -/

theorem setUniqueTrue_eq {d : List (String × IndexFlags)} {k : String}
    {d' : List (String × IndexFlags)} (h : setUniqueTrue d k = some d') :
    d' = d.map fun p =>
      if p.1 = k then (p.1, ⟨p.2.primary_key, true⟩) else p := by
  unfold setUniqueTrue at h
  split at h
  · exact (Option.some.inj h).symm
  · cases h

theorem setUniqueTrue_some_of_mem {d : List (String × IndexFlags)}
    {k : String} (hm : k ∈ d.map Prod.fst) :
    setUniqueTrue d k = some (d.map fun p =>
      if p.1 = k then (p.1, ⟨p.2.primary_key, true⟩) else p) := by
  unfold setUniqueTrue
  rw [if_pos (contains_iff_mem.mpr hm)]

theorem setUniqueTrue_keys {d : List (String × IndexFlags)} {k : String}
    {d' : List (String × IndexFlags)} (h : setUniqueTrue d k = some d') :
    d'.map Prod.fst = d.map Prod.fst := by
  rw [setUniqueTrue_eq h, List.map_map]
  refine List.map_congr_left fun p _ => ?_
  by_cases hp : p.1 = k <;> simp [hp]

theorem dictLookup_map_update (d : List (String × IndexFlags))
    (k a : String) (f : IndexFlags → IndexFlags) :
    dictLookup a (d.map fun p => if p.1 = k then (p.1, f p.2) else p)
      = (dictLookup a d).map fun v => if a = k then f v else v := by
  induction d with
  | nil => rfl
  | cons p rest ih =>
    obtain ⟨k', v'⟩ := p
    dsimp only [List.map_cons]
    by_cases hk' : k' = k
    · rw [if_pos hk']
      by_cases hak : a = k'
      · simp only [dictLookup, if_pos hak, Option.map_some']
        rw [if_pos (hak.trans hk')]
      · simp only [dictLookup, if_neg hak]
        exact ih
    · rw [if_neg hk']
      by_cases hak : a = k'
      · simp only [dictLookup, if_pos hak, Option.map_some']
        rw [if_neg (fun h : a = k => hk' (hak.symm.trans h))]
      · simp only [dictLookup, if_neg hak]
        exact ih

theorem setUniqueTrue_lookup {d : List (String × IndexFlags)} {k : String}
    {d' : List (String × IndexFlags)} (h : setUniqueTrue d k = some d')
    (a : String) :
    dictLookup a d' = (dictLookup a d).map
      fun v => if a = k then ⟨v.primary_key, true⟩ else v := by
  rw [setUniqueTrue_eq h]
  exact dictLookup_map_update d k a fun v => ⟨v.primary_key, true⟩

theorem applyIndexStep_skip {idxInfos : List (String × List IndexInfoRow)}
    {r : IndexListRow} (d : List (String × IndexFlags))
    (h : r.unique = 0 ∨ (lookupIndexInfo idxInfos r.name).length ≠ 1) :
    applyIndexStep idxInfos r d = some d := by
  unfold applyIndexStep
  by_cases hu : r.unique = 0
  · rw [if_pos (by simpa using hu)]
  · rw [if_neg (by simpa using hu)]
    have hlen := h.resolve_left hu
    cases hinfo : lookupIndexInfo idxInfos r.name with
    | nil => rfl
    | cons i rest =>
      cases rest with
      | nil => exact absurd (by rw [hinfo]; rfl) hlen
      | cons j rest' => rfl

theorem applyIndexStep_update {idxInfos : List (String × List IndexInfoRow)}
    {r : IndexListRow} {i : IndexInfoRow} (d : List (String × IndexFlags))
    (hu : r.unique ≠ 0) (hinfo : lookupIndexInfo idxInfos r.name = [i]) :
    applyIndexStep idxInfos r d = setUniqueTrue d i.name := by
  unfold applyIndexStep
  rw [if_neg (by simpa using hu), hinfo]

theorem applyIndexStep_some {idxInfos : List (String × List IndexInfoRow)}
    {r : IndexListRow} {d d2 : List (String × IndexFlags)}
    (h : applyIndexStep idxInfos r d = some d2) :
    d2 = d ∨ (r.unique ≠ 0 ∧ ∃ i, lookupIndexInfo idxInfos r.name = [i] ∧
      setUniqueTrue d i.name = some d2) := by
  unfold applyIndexStep at h
  by_cases hu : r.unique = 0
  · rw [if_pos (by simpa using hu)] at h
    exact Or.inl (Option.some.inj h).symm
  · rw [if_neg (by simpa using hu)] at h
    cases hinfo : lookupIndexInfo idxInfos r.name with
    | nil =>
      rw [hinfo] at h
      exact Or.inl (Option.some.inj h).symm
    | cons i rest =>
      cases rest with
      | nil =>
        rw [hinfo] at h
        exact Or.inr ⟨hu, i, rfl, h⟩
      | cons j rest' =>
        rw [hinfo] at h
        exact Or.inl (Option.some.inj h).symm

theorem applyIndexStep_isSome {idxInfos : List (String × List IndexInfoRow)}
    {r : IndexListRow} (d : List (String × IndexFlags))
    (h : r.unique ≠ 0 → ∀ i, lookupIndexInfo idxInfos r.name = [i] →
      i.name ∈ d.map Prod.fst) :
    ∃ d2, applyIndexStep idxInfos r d = some d2 := by
  unfold applyIndexStep
  by_cases hu : r.unique = 0
  · rw [if_pos (by simpa using hu)]
    exact ⟨d, rfl⟩
  · rw [if_neg (by simpa using hu)]
    cases hinfo : lookupIndexInfo idxInfos r.name with
    | nil => exact ⟨d, rfl⟩
    | cons i rest =>
      cases rest with
      | nil => exact ⟨_, setUniqueTrue_some_of_mem (h hu i hinfo)⟩
      | cons j rest' => exact ⟨d, rfl⟩

theorem applyIndexStep_keys {idxInfos : List (String × List IndexInfoRow)}
    {r : IndexListRow} {d d2 : List (String × IndexFlags)}
    (h : applyIndexStep idxInfos r d = some d2) :
    d2.map Prod.fst = d.map Prod.fst := by
  rcases applyIndexStep_some h with rfl | ⟨_, i, _, hsu⟩
  · rfl
  · exact setUniqueTrue_keys hsu

theorem applyIndexStep_pk {idxInfos : List (String × List IndexInfoRow)}
    {r : IndexListRow} {d d2 : List (String × IndexFlags)}
    (h : applyIndexStep idxInfos r d = some d2) (a : String)
    (v2 : IndexFlags) (hv2 : dictLookup a d2 = some v2) :
    ∃ v, dictLookup a d = some v ∧ v2.primary_key = v.primary_key := by
  rcases applyIndexStep_some h with rfl | ⟨_, i, _, hsu⟩
  · exact ⟨v2, hv2, rfl⟩
  · have hl := setUniqueTrue_lookup hsu a
    rw [hv2] at hl
    cases ho : dictLookup a d with
    | none => rw [ho] at hl; cases hl
    | some v0 =>
      rw [ho] at hl
      refine ⟨v0, rfl, ?_⟩
      have hv2v0 : v2 = if a = i.name
          then (⟨v0.primary_key, true⟩ : IndexFlags) else v0 := by
        simpa using hl
      by_cases hai : a = i.name
      · rw [hv2v0, if_pos hai]
      · rw [hv2v0, if_neg hai]

theorem applyIndexStep_untouched
    {idxInfos : List (String × List IndexInfoRow)}
    {r : IndexListRow} {d d2 : List (String × IndexFlags)}
    (h : applyIndexStep idxInfos r d = some d2) (a : String)
    (hnot : r.unique ≠ 0 → ∀ i, lookupIndexInfo idxInfos r.name = [i] →
      i.name ≠ a) :
    dictLookup a d2 = dictLookup a d := by
  rcases applyIndexStep_some h with rfl | ⟨hu, i, hinfo, hsu⟩
  · rfl
  · rw [setUniqueTrue_lookup hsu a]
    have hne : a ≠ i.name := fun heq => hnot hu i hinfo heq.symm
    cases dictLookup a d with
    | none => rfl
    | some v => simp [hne]

theorem applyIndexes_skip {idxInfos : List (String × List IndexInfoRow)} :
    ∀ (rows : List IndexListRow) (d : List (String × IndexFlags)),
    (∀ r ∈ rows, r.unique ≠ 0 →
      (lookupIndexInfo idxInfos r.name).length ≠ 1) →
    applyIndexes idxInfos rows d = some d := by
  intro rows
  induction rows with
  | nil => intro d _; rfl
  | cons r rs ih =>
    intro d h
    have hstep : applyIndexStep idxInfos r d = some d := by
      apply applyIndexStep_skip
      by_cases hu : r.unique = 0
      · exact Or.inl hu
      · exact Or.inr (h r (List.mem_cons_self _ _) hu)
    simp only [applyIndexes, hstep]
    exact ih d fun q hq => h q (List.mem_cons_of_mem _ hq)

theorem applyIndexes_append {idxInfos : List (String × List IndexInfoRow)} :
    ∀ (rows1 rows2 : List IndexListRow) (d : List (String × IndexFlags)),
    applyIndexes idxInfos (rows1 ++ rows2) d =
      match applyIndexes idxInfos rows1 d with
      | some d1 => applyIndexes idxInfos rows2 d1
      | none => none := by
  intro rows1
  induction rows1 with
  | nil => intro rows2 d; rfl
  | cons r rs ih =>
    intro rows2 d
    simp only [List.cons_append, applyIndexes]
    cases applyIndexStep idxInfos r d with
    | none => rfl
    | some d2 => exact ih rows2 d2

theorem applyIndexes_some_keys {idxInfos : List (String × List IndexInfoRow)} :
    ∀ (rows : List IndexListRow) (d : List (String × IndexFlags)),
    (∀ r ∈ rows, r.unique ≠ 0 →
      ∀ i, lookupIndexInfo idxInfos r.name = [i] →
        i.name ∈ d.map Prod.fst) →
    ∃ d', applyIndexes idxInfos rows d = some d' ∧
      d'.map Prod.fst = d.map Prod.fst := by
  intro rows
  induction rows with
  | nil => intro d _; exact ⟨d, rfl, rfl⟩
  | cons r rs ih =>
    intro d h
    obtain ⟨d2, hstep⟩ :=
      applyIndexStep_isSome d (h r (List.mem_cons_self _ _))
    have hkeys2 := applyIndexStep_keys hstep
    obtain ⟨d', h1, h2⟩ := ih d2 fun q hq hqu j hj => by
      rw [hkeys2]
      exact h q (List.mem_cons_of_mem _ hq) hqu j hj
    refine ⟨d', ?_, h2.trans hkeys2⟩
    simp only [applyIndexes, hstep]
    exact h1

theorem applyIndexes_lookup_pk {idxInfos : List (String × List IndexInfoRow)} :
    ∀ (rows : List IndexListRow) (d d' : List (String × IndexFlags)),
    applyIndexes idxInfos rows d = some d' →
    ∀ (a : String) (v' : IndexFlags), dictLookup a d' = some v' →
    ∃ v, dictLookup a d = some v ∧ v'.primary_key = v.primary_key := by
  intro rows
  induction rows with
  | nil =>
    intro d d' h a v' hv'
    cases h
    exact ⟨v', hv', rfl⟩
  | cons r rs ih =>
    intro d d' h a v' hv'
    simp only [applyIndexes] at h
    cases hstep : applyIndexStep idxInfos r d with
    | none => rw [hstep] at h; cases h
    | some d2 =>
      rw [hstep] at h
      obtain ⟨v2, hv2, hpk2⟩ := ih d2 d' h a v' hv'
      obtain ⟨v, hv, hpk⟩ := applyIndexStep_pk hstep a v2 hv2
      exact ⟨v, hv, hpk2.trans hpk⟩

theorem applyIndexes_lookup_untouched
    {idxInfos : List (String × List IndexInfoRow)} :
    ∀ (rows : List IndexListRow) (d d' : List (String × IndexFlags)),
    applyIndexes idxInfos rows d = some d' →
    ∀ a : String,
    (∀ r ∈ rows, r.unique ≠ 0 →
      ∀ i, lookupIndexInfo idxInfos r.name = [i] → i.name ≠ a) →
    dictLookup a d' = dictLookup a d := by
  intro rows
  induction rows with
  | nil =>
    intro d d' h a _
    cases h
    rfl
  | cons r rs ih =>
    intro d d' h a huntouched
    simp only [applyIndexes] at h
    cases hstep : applyIndexStep idxInfos r d with
    | none => rw [hstep] at h; cases h
    | some d2 =>
      rw [hstep] at h
      have h1 := ih d2 d' h a
        fun q hq => huntouched q (List.mem_cons_of_mem _ hq)
      have h2 := applyIndexStep_untouched hstep a
        (huntouched r (List.mem_cons_self _ _))
      exact h1.trans h2

/-! ## initIndexes lemmas -/

theorem foldl_init_keys :
    ∀ (cols : List ColumnInfo) (d : List (String × IndexFlags)) (a : String),
    a ∈ ((cols.foldl
        (fun d info => dictSet d info.name ⟨info.pk != 0, false⟩) d).map
      Prod.fst) ↔
    a ∈ d.map Prod.fst ∨ a ∈ cols.map ColumnInfo.name := by
  intro cols
  induction cols with
  | nil => intro d a; simp
  | cons c cs ih =>
    intro d a
    simp only [List.foldl_cons, List.map_cons, List.mem_cons]
    rw [ih, dictSet_keys]
    tauto

theorem initIndexes_keys (cols : List ColumnInfo) (a : String) :
    a ∈ (initIndexes cols).map Prod.fst ↔ a ∈ cols.map ColumnInfo.name := by
  have h := foldl_init_keys cols [] a
  simpa [initIndexes] using h

theorem foldl_init_unique_false :
    ∀ (cols : List ColumnInfo) (d : List (String × IndexFlags)),
    (∀ p ∈ d, p.2.unique = false) →
    ∀ p ∈ cols.foldl
        (fun d info => dictSet d info.name ⟨info.pk != 0, false⟩) d,
      p.2.unique = false := by
  intro cols
  induction cols with
  | nil => intro d h; exact h
  | cons c cs ih =>
    intro d h
    simp only [List.foldl_cons]
    exact ih _ (dictSet_forall h fun a => rfl)

theorem initIndexes_unique_false (cols : List ColumnInfo) :
    ∀ p ∈ initIndexes cols, p.2.unique = false :=
  foldl_init_unique_false cols [] (by simp)

theorem foldl_init_lookup_notmem :
    ∀ (cols : List ColumnInfo) (d : List (String × IndexFlags)) (a : String),
    a ∉ cols.map ColumnInfo.name →
    dictLookup a (cols.foldl
        (fun d info => dictSet d info.name ⟨info.pk != 0, false⟩) d)
      = dictLookup a d := by
  intro cols
  induction cols with
  | nil => intro d a _; rfl
  | cons c cs ih =>
    intro d a ha
    simp only [List.map_cons, List.mem_cons, not_or] at ha
    simp only [List.foldl_cons]
    rw [ih _ a ha.2, dictLookup_dictSet_other _ _ _ _ ha.1]

theorem foldl_init_lookup :
    ∀ (cols : List ColumnInfo) (d : List (String × IndexFlags)),
    (cols.map ColumnInfo.name).Nodup →
    ∀ c ∈ cols,
    dictLookup c.name (cols.foldl
        (fun d info => dictSet d info.name ⟨info.pk != 0, false⟩) d)
      = some ⟨c.pk != 0, false⟩ := by
  intro cols
  induction cols with
  | nil => intro d _ c hc; cases hc
  | cons c0 cs ih =>
    intro d hnd c hc
    simp only [List.map_cons, List.nodup_cons] at hnd
    simp only [List.foldl_cons]
    rcases List.mem_cons.mp hc with rfl | hcs
    · rw [foldl_init_lookup_notmem cs _ c.name hnd.1,
        dictLookup_dictSet_self]
    · exact ih _ hnd.2 c hcs

theorem initIndexes_lookup {cols : List ColumnInfo}
    (hnd : (cols.map ColumnInfo.name).Nodup) :
    ∀ c ∈ cols, dictLookup c.name (initIndexes cols)
      = some ⟨c.pk != 0, false⟩ :=
  foldl_init_lookup cols [] hnd

theorem table_info_names (cols : List TableInfoRow) :
    (table_info cols).map ColumnInfo.name = cols.map TableInfoRow.name := by
  simp [table_info, List.map_map]

/-! ## C6: composite unique indexes are skipped -/

/-- C6: when every unique index of the table is composite (covers at
least two columns), `get_indexes` returns the seed dictionary untouched
and reports `unique = False` for every column. -/
theorem composite_unique_skipped (cols : List TableInfoRow)
    (idxList : List IndexListRow)
    (idxInfos : List (String × List IndexInfoRow))
    (hcomp : ∀ r ∈ idxList, r.unique ≠ 0 →
      2 ≤ (lookupIndexInfo idxInfos r.name).length) :
    get_indexes cols idxList idxInfos
      = some (initIndexes (table_info cols)) ∧
    ∀ p ∈ initIndexes (table_info cols), p.2.unique = false := by
  constructor
  · unfold get_indexes
    apply applyIndexes_skip
    intro r hr hu
    have h2 := hcomp r hr hu
    omega
  · exact initIndexes_unique_false _

/-- C6 witness: a three-column table whose only index is a two-column
unique index keeps every `unique` flag `False`. -/
theorem composite_unique_skipped_witness :
    get_indexes
      [⟨0, "id", "integer", 1, Option.none, 1⟩,
       ⟨1, "a", "integer", 0, Option.none, 0⟩,
       ⟨2, "b", "integer", 0, Option.none, 0⟩]
      [⟨0, "u_ab", 1⟩]
      [("u_ab", [⟨0, 1, "a"⟩, ⟨1, 2, "b"⟩])]
      = some (initIndexes (table_info
          [⟨0, "id", "integer", 1, Option.none, 1⟩,
           ⟨1, "a", "integer", 0, Option.none, 0⟩,
           ⟨2, "b", "integer", 0, Option.none, 0⟩])) :=
  (composite_unique_skipped
      [⟨0, "id", "integer", 1, Option.none, 1⟩,
       ⟨1, "a", "integer", 0, Option.none, 0⟩,
       ⟨2, "b", "integer", 0, Option.none, 0⟩]
      [⟨0, "u_ab", 1⟩]
      [("u_ab", [⟨0, 1, "a"⟩, ⟨1, 2, "b"⟩])]
      (by decide)).1

/-! ## C7: a single-column unique index sets exactly one flag -/

/-- C7: if the index list consists of exactly one unique index, covering
exactly the one column `i0.name` of the table, and any number of
non-unique indexes, then `get_indexes` succeeds and reports
`unique = True` exactly for `i0.name` and `unique = False` for every
other column. -/
theorem single_unique_index_flags (cols : List TableInfoRow)
    (L1 L2 : List IndexListRow) (r0 : IndexListRow)
    (idxInfos : List (String × List IndexInfoRow)) (i0 : IndexInfoRow)
    (hL1 : ∀ r ∈ L1, r.unique = 0) (hL2 : ∀ r ∈ L2, r.unique = 0)
    (hr0 : r0.unique ≠ 0) (hinfo : lookupIndexInfo idxInfos r0.name = [i0])
    (hcol : i0.name ∈ cols.map TableInfoRow.name) :
    (∃ d, get_indexes cols (L1 ++ r0 :: L2) idxInfos = some d) ∧
    ∀ d, get_indexes cols (L1 ++ r0 :: L2) idxInfos = some d →
      i0.name ∈ d.map Prod.fst ∧
      ∀ p ∈ d, p.2.unique = decide (p.1 = i0.name) := by
  have hmem0 : i0.name ∈ (initIndexes (table_info cols)).map Prod.fst := by
    rw [initIndexes_keys, table_info_names]
    exact hcol
  have hsu := setUniqueTrue_some_of_mem hmem0
  have h1 : applyIndexes idxInfos L1 (initIndexes (table_info cols))
      = some (initIndexes (table_info cols)) :=
    applyIndexes_skip L1 _ fun r hr hu => absurd (hL1 r hr) hu
  have hget : get_indexes cols (L1 ++ r0 :: L2) idxInfos
      = some ((initIndexes (table_info cols)).map fun p =>
          if p.1 = i0.name then (p.1, ⟨p.2.primary_key, true⟩) else p) := by
    unfold get_indexes
    rw [applyIndexes_append, h1]
    simp only [applyIndexes]
    rw [applyIndexStep_update _ hr0 hinfo, hsu]
    exact applyIndexes_skip L2 _ fun r hr hu => absurd (hL2 r hr) hu
  refine ⟨⟨_, hget⟩, ?_⟩
  intro d hd
  have hdm : d = (initIndexes (table_info cols)).map fun p =>
      if p.1 = i0.name then (p.1, ⟨p.2.primary_key, true⟩) else p :=
    Option.some.inj (hd.symm.trans hget)
  subst hdm
  constructor
  · rw [setUniqueTrue_keys hsu]
    exact hmem0
  · intro p hp
    obtain ⟨q, hq, rfl⟩ := List.mem_map.mp hp
    by_cases hq1 : q.1 = i0.name
    · rw [if_pos hq1]
      simp [hq1]
    · rw [if_neg hq1]
      have hqf := initIndexes_unique_false (table_info cols) q hq
      simp [hqf, hq1]

/-- C7 witness: with one single-column unique index on `email` and one
non-unique index, the result contains the `email` column. -/
theorem single_unique_index_flags_witness :
    "email" ∈ ([("id", (⟨true, false⟩ : IndexFlags)),
      ("email", ⟨false, true⟩), ("age", ⟨false, false⟩)]).map Prod.fst :=
  ((single_unique_index_flags
      [⟨0, "id", "integer", 1, Option.none, 1⟩,
       ⟨1, "email", "varchar(30)", 0, Option.none, 0⟩,
       ⟨2, "age", "integer", 0, Option.none, 0⟩]
      [] [⟨1, "idx_age", 0⟩] ⟨0, "idx_email", 1⟩
      [("idx_email", [⟨0, 1, "email"⟩]), ("idx_age", [⟨0, 2, "age"⟩])]
      ⟨0, 1, "email"⟩
      (by decide) (by decide) (by decide) (by decide) (by decide)).2
    [("id", ⟨true, false⟩), ("email", ⟨false, true⟩), ("age", ⟨false, false⟩)]
    (by decide)).1

/-! ## C9: get_indexes covers every column -/

/-- C9: under distinct column names and well-formed indexes (every
single-column unique index covers a catalog column), `get_indexes`
succeeds; its key set is exactly the catalog's column-name set, each
column's `primary_key` flag is `pk != 0`, and a column's `unique` flag
is `False` unless some single-column unique index covers it. -/
theorem get_indexes_complete (cols : List TableInfoRow)
    (idxList : List IndexListRow)
    (idxInfos : List (String × List IndexInfoRow))
    (hnd : (cols.map TableInfoRow.name).Nodup)
    (hwf : ∀ r ∈ idxList, r.unique ≠ 0 →
      ∀ i, lookupIndexInfo idxInfos r.name = [i] →
        i.name ∈ cols.map TableInfoRow.name) :
    (∃ d, get_indexes cols idxList idxInfos = some d) ∧
    ∀ d, get_indexes cols idxList idxInfos = some d →
      (∀ a, a ∈ d.map Prod.fst ↔ a ∈ cols.map TableInfoRow.name) ∧
      (∀ c ∈ cols, ∃ v, dictLookup c.name d = some v ∧
        v.primary_key = (c.pk != 0)) ∧
      (∀ a, (∀ r ∈ idxList, r.unique ≠ 0 →
          ∀ i, lookupIndexInfo idxInfos r.name = [i] → i.name ≠ a) →
        ∀ v, dictLookup a d = some v → v.unique = false) := by
  have hinit_keys : ∀ a,
      a ∈ (initIndexes (table_info cols)).map Prod.fst ↔
        a ∈ cols.map TableInfoRow.name := fun a => by
    rw [initIndexes_keys, table_info_names]
  obtain ⟨d', hd', hkeys⟩ := applyIndexes_some_keys idxList
    (initIndexes (table_info cols))
    fun r hr hu i hi => (hinit_keys _).mpr (hwf r hr hu i hi)
  constructor
  · exact ⟨d', hd'⟩
  intro d hd
  have hdd' : d = d' := Option.some.inj (hd.symm.trans hd')
  subst hdd'
  refine ⟨?_, ?_, ?_⟩
  · intro a
    rw [hkeys]
    exact hinit_keys a
  · intro c hc
    have hmc : c.name ∈ d.map Prod.fst := by
      rw [hkeys]
      exact (hinit_keys _).mpr (List.mem_map.mpr ⟨c, hc, rfl⟩)
    obtain ⟨v', hv'⟩ := dictLookup_isSome_of_mem hmc
    obtain ⟨v0, hv0, hpk⟩ := applyIndexes_lookup_pk idxList _ _ hd'
      c.name v' hv'
    have hcol : (⟨c.name, c.type, c.notnull == 0, c.pk⟩ : ColumnInfo)
        ∈ table_info cols := List.mem_map.mpr ⟨c, hc, rfl⟩
    have hndc : ((table_info cols).map ColumnInfo.name).Nodup := by
      rw [table_info_names]
      exact hnd
    have hlook : dictLookup c.name (initIndexes (table_info cols))
        = some ⟨c.pk != 0, false⟩ := initIndexes_lookup hndc _ hcol
    have hv0eq : v0 = ⟨c.pk != 0, false⟩ :=
      Option.some.inj (hv0.symm.trans hlook)
    exact ⟨v', hv', by rw [hpk, hv0eq]⟩
  · intro a hnever v hv
    have huntouch := applyIndexes_lookup_untouched idxList _ _ hd' a hnever
    rw [huntouch] at hv
    exact initIndexes_unique_false _ _ (dictLookup_mem hv)

/-- C9 witness: on a concrete table, the key-set characterization
evaluated at column `id`. -/
theorem get_indexes_complete_witness :
    "id" ∈ ([("id", (⟨true, false⟩ : IndexFlags)),
        ("email", ⟨false, true⟩), ("age", ⟨false, false⟩)]).map Prod.fst ↔
      "id" ∈ ([⟨0, "id", "integer", 1, Option.none, 1⟩,
        ⟨1, "email", "varchar(30)", 0, Option.none, 0⟩,
        ⟨2, "age", "integer", 0, Option.none, 0⟩] :
          List TableInfoRow).map TableInfoRow.name :=
  (((get_indexes_complete
      [⟨0, "id", "integer", 1, Option.none, 1⟩,
       ⟨1, "email", "varchar(30)", 0, Option.none, 0⟩,
       ⟨2, "age", "integer", 0, Option.none, 0⟩]
      [⟨0, "idx_email", 1⟩, ⟨1, "idx_age", 0⟩]
      [("idx_email", [⟨0, 1, "email"⟩]), ("idx_age", [⟨0, 2, "age"⟩])]
      (by decide)
      (by
        intro r hr hu i hi
        fin_cases hr
        · have h2 : [(⟨0, 1, "email"⟩ : IndexInfoRow)] = [i] := hi
          injection h2 with h3 _
          rw [← h3]
          decide
        · exact absurd rfl hu)).2
    [("id", ⟨true, false⟩), ("email", ⟨false, true⟩), ("age", ⟨false, false⟩)]
    (by decide)).1) "id"
